import Mathlib

/-!
Verification of the SecureScript Policy Hardening Execution Engine.

This file embeds the engine's core logic in Lean 4, translated from the
repository's JavaScript/TypeScript sources:

* script packing and per-policy block extraction
  (`generateScriptForPolicies` and the extraction regex in the dashboard's
  `handleGenerateReport`),
* the natural numeric-prefix sort comparator (`naturalSort`),
* per-policy script generation with custom-override precedence
  (`PolicyDetailView` / `generateScriptForPolicies`),
* the Electron IPC registry handlers (`apply-hardening`, `revert-hardening`,
  `check-status`),
* the POSIX elevation wrapper (`executeScript` in the React frontend's
  `main.js`).

Strings are modelled as `List Char`.  JavaScript runtime behaviour that the
code relies on (loose equality `==`, `parseInt`, `Number`, `String.trim`,
regular-expression matching of the concrete patterns used) is modelled
explicitly on the integer/ASCII domain these policies inhabit.
-/

namespace SecureScript

/-- Character strings, modelled as lists of characters. -/
abbrev Str := List Char

/-- Whitespace recognised by `String.prototype.trim` (ASCII subset). -/
def isWs (c : Char) : Bool :=
  c = ' ' || c = '\t' || c = '\n' || c = '\r'

/-- Drop leading whitespace. -/
def trimLeft : Str → Str
  | [] => []
  | c :: cs => if isWs c then trimLeft cs else c :: cs

/-- Drop trailing whitespace. -/
def trimRight (s : Str) : Str :=
  (trimLeft s.reverse).reverse

/-- JavaScript `String.prototype.trim`: drop whitespace at both ends. -/
def trim (s : Str) : Str :=
  trimRight (trimLeft s)

/-- `leadsWith pat s` holds when `pat` is an initial segment of `s`. -/
def leadsWith : Str → Str → Bool
  | [], _ => true
  | _ :: _, [] => false
  | p :: ps, c :: cs => if p = c then leadsWith ps cs else false

/-- Leftmost occurrence search: scan `s` for the first position where `pat`
is an initial segment, returning the remainder of `s` after that occurrence
(`none` when `pat` never occurs).  This models how a regular expression whose
pattern starts with a literal finds its leftmost match. -/
def firstMatch (pat : Str) : Str → Option Str
  | [] => if leadsWith pat [] then some [] else none
  | c :: s => if leadsWith pat (c :: s) then some ((c :: s).drop pat.length)
              else firstMatch pat s

/-- `pat` occurs somewhere inside `s` (JavaScript `String.prototype.includes`). -/
def containsSeq (pat s : Str) : Bool :=
  (firstMatch pat s).isSome

/-- Collect characters until the first position where `stp` starts, or to the
end of the input.  This models the lazy capture `([\s\S]*?)` bounded by the
lookahead `(?=stp|$)`. -/
def captureUpTo (stp : Str) : Str → Str
  | [] => []
  | c :: s => if leadsWith stp (c :: s) then [] else c :: captureUpTo stp s

/-- Join a list of strings with a separator (JavaScript `Array.join`). -/
def joinSep (sep : Str) : List Str → Str
  | [] => []
  | [b] => b
  | b :: b2 :: bs => b ++ sep ++ joinSep sep (b2 :: bs)

/-- `Occurs pat s`: `pat` appears as a contiguous segment of `s`. -/
def Occurs (pat s : Str) : Prop :=
  ∃ u v, s = u ++ pat ++ v

section StrLemmas

theorem leadsWith_iff {pat s : Str} :
    leadsWith pat s = true ↔ ∃ r, s = pat ++ r := by
  induction pat generalizing s with
  | nil => simp [leadsWith]
  | cons p ps ih =>
    cases s with
    | nil => simp [leadsWith]
    | cons c cs =>
      by_cases h : p = c
      · subst h
        rw [show leadsWith (p :: ps) (p :: cs) = leadsWith ps cs by simp [leadsWith]]
        rw [ih]
        constructor
        · rintro ⟨r, rfl⟩; exact ⟨r, rfl⟩
        · rintro ⟨r, hr⟩
          refine ⟨r, ?_⟩
          simpa using hr
      · rw [show leadsWith (p :: ps) (c :: cs) = false by simp [leadsWith, h]]
        simp only [Bool.false_eq_true, false_iff]
        rintro ⟨r, hr⟩
        simp only [List.cons_append, List.cons.injEq] at hr
        exact h hr.1.symm

theorem leadsWith_self_append (pat r : Str) : leadsWith pat (pat ++ r) = true :=
  leadsWith_iff.mpr ⟨r, rfl⟩

theorem firstMatch_eq_none {pat s : Str} (h : ¬ Occurs pat s) :
    firstMatch pat s = none := by
  induction s with
  | nil =>
    simp only [firstMatch]
    rw [if_neg]
    intro hl
    rcases leadsWith_iff.mp hl with ⟨r, hr⟩
    exact h ⟨[], r, by simpa using hr⟩
  | cons c cs ih =>
    simp only [firstMatch]
    rw [if_neg, ih]
    · intro ⟨u, v, huv⟩
      exact h ⟨c :: u, v, by simp [huv]⟩
    · intro hl
      rcases leadsWith_iff.mp hl with ⟨r, hr⟩
      exact h ⟨[], r, by simpa using hr⟩

theorem firstMatch_here {pat r : Str} :
    firstMatch pat (pat ++ r) = some r := by
  cases hs : pat ++ r with
  | nil =>
    have hp : pat = [] := by
      cases pat with
      | nil => rfl
      | cons a as => simp at hs
    subst hp
    simp at hs
    subst hs
    simp [firstMatch, leadsWith]
  | cons c cs =>
    rw [← hs]
    have hlw : leadsWith pat (pat ++ r) = true := leadsWith_self_append pat r
    cases pat with
    | nil => simp at hs; simp [hs, firstMatch, leadsWith]
    | cons p ps =>
      have : firstMatch (p :: ps) ((p :: ps) ++ r) =
          if leadsWith (p :: ps) ((p :: ps) ++ r) then
            some (((p :: ps) ++ r).drop (p :: ps).length) else
            firstMatch (p :: ps) (ps ++ r) := by
        simp [firstMatch]
      rw [this, if_pos (leadsWith_self_append _ _)]
      congr 1
      exact List.drop_left (p :: ps) r

theorem firstMatch_skip {pat x y : Str}
    (h : ∀ u v, x ++ y = u ++ pat ++ v → ∃ w, u = x ++ w) :
    firstMatch pat (x ++ y) = firstMatch pat y := by
  induction x with
  | nil => simp
  | cons c cs ih =>
    have hstep : firstMatch pat ((c :: cs) ++ y) =
        if leadsWith pat ((c :: cs) ++ y) then
          some (((c :: cs) ++ y).drop pat.length) else firstMatch pat (cs ++ y) := by
      simp [firstMatch]
    rw [hstep, if_neg, ih]
    · intro u v huv
      rcases h (c :: u) v (by simp [huv]) with ⟨w, hw⟩
      refine ⟨w, ?_⟩
      have := hw
      simp only [List.cons_append, List.cons.injEq] at this
      exact this.2
    · intro hl
      rcases leadsWith_iff.mp hl with ⟨r, hr⟩
      rcases h [] r (by simpa using hr) with ⟨w, hw⟩
      simp at hw

theorem captureUpTo_no_stop {stp t : Str}
    (h : ∀ u v, t ≠ u ++ stp ++ v) :
    captureUpTo stp t = t := by
  induction t with
  | nil => simp [captureUpTo]
  | cons c cs ih =>
    simp only [captureUpTo]
    rw [if_neg, ih]
    · intro u v huv
      exact h (c :: u) v (by simp [huv])
    · intro hl
      rcases leadsWith_iff.mp hl with ⟨r, hr⟩
      exact h [] r (by simpa using hr)

end StrLemmas

/-! ### Script packer and unpacker

`generateScriptForPolicies` emits, for each policy whose chosen script text is
non-empty, the block `"# Policy: " ++ description ++ "\n" ++ text`, and joins
the blocks with `"\n\n"`.  `handleGenerateReport` recovers one policy's block
with the regular expression
`# Policy: {escaped description}\n([\s\S]*?)(?=\n# Policy:|$)` and trims the
captured text. -/

/-- The header text `"# Policy:"` without its trailing space. -/
def core : Str := "# Policy:".data

/-- The header marker `"# Policy: "` including its trailing space. -/
def marker : Str := "# Policy: ".data

/-- Header line placed in front of each policy's commands (with the newline
that separates it from the command text). -/
def hdr (d : Str) : Str := marker ++ d ++ ['\n']

/-- Separator between packed blocks: a blank line. -/
def sepStr : Str := "\n\n".data

/-- The lookahead text `"\n# Policy:"` that ends a captured block. -/
def stopPat : Str := '\n' :: core

/-- Join a list of `(description, text)` blocks into one packed script. -/
def packBlocks (qs : List (Str × Str)) : Str :=
  joinSep sepStr (qs.map fun q => hdr q.1 ++ q.2)

/-- The packing core of `generateScriptForPolicies`: policies whose script part
is empty are skipped (the JavaScript `if (scriptPart)` guard); the remaining
blocks are emitted in order and joined by a blank line. -/
def packPairs (items : List (Str × Str)) : Str :=
  packBlocks (items.filter fun it => !it.2.isEmpty)

/-- Per-policy block extraction from `handleGenerateReport`: find the leftmost
occurrence of the literal header for `d`, lazily capture up to the next
`"\n# Policy:"` or the end of the text, and trim the capture
(`match ? match[1].trim() : ''`); a failed match yields the empty command. -/
def extractBlock (packed d : Str) : Str :=
  ((firstMatch (hdr d) packed).map fun rem => trim (captureUpTo stopPat rem)).getD []

section PackLemmas

theorem marker_eq : marker = core ++ [' '] := by decide

theorem core_head : core = '#' :: "# Policy:".data.tail := by decide

theorem hash_not_in_core_tail : '#' ∉ "# Policy:".data.tail := by decide

theorem nl_not_in_core : '\n' ∉ core := by decide

/-- If character `h` occurs nowhere in `tl`, an occurrence of `h` on the right
of `tl ++ r` must lie entirely within `r`. -/
theorem no_head_in {h : Char} {tl : Str} (hn : h ∉ tl) :
    ∀ {u v r : Str}, tl ++ r = u ++ h :: v → ∃ w, u = tl ++ w ∧ r = w ++ h :: v := by
  induction tl with
  | nil =>
    intro u v r he
    exact ⟨u, by simp, by simpa using he⟩
  | cons b tl' ih =>
    intro u v r he
    have hb : b ≠ h := fun hb => hn (by simp [hb])
    cases u with
    | nil =>
      simp only [List.cons_append, List.nil_append, List.cons.injEq] at he
      exact absurd he.1 hb
    | cons b' u'' =>
      simp only [List.cons_append, List.cons.injEq] at he
      obtain ⟨rfl, he⟩ := he
      rcases ih (fun hm => hn (List.mem_cons_of_mem _ hm)) he with ⟨w, hw1, hw2⟩
      exact ⟨w, by simp [hw1], hw2⟩

/-- If the head character `h` of a pattern occurs nowhere in its tail, then an
occurrence of `h` inside `(h :: tl) ++ r` is either at position `0` or lies
beyond the whole pattern. -/
theorem head_occ_split {h : Char} {tl u v r : Str} (hn : h ∉ tl)
    (he : (h :: tl) ++ r = u ++ h :: v) :
    u = [] ∨ ∃ w, u = (h :: tl) ++ w ∧ r = w ++ h :: v := by
  cases u with
  | nil => exact Or.inl rfl
  | cons a u' =>
    right
    simp only [List.cons_append, List.cons.injEq] at he
    obtain ⟨rfl, he⟩ := he
    rcases no_head_in hn he with ⟨w, hw1, hw2⟩
    exact ⟨w, by simp [hw1], hw2⟩

/-- An occurrence of `core` inside `core ++ r` is either at position `0` or
lies entirely within `r` (`core` contains `'#'` only as its first character). -/
theorem core_self {u v r : Str} (he : core ++ r = u ++ core ++ v) :
    u = [] ∨ ∃ w, u = core ++ w ∧ r = w ++ core ++ v := by
  have he' : ('#' :: "# Policy:".data.tail) ++ r =
      u ++ '#' :: ("# Policy:".data.tail ++ v) := by
    rw [← core_head]
    calc core ++ r = u ++ core ++ v := he
      _ = u ++ '#' :: ("# Policy:".data.tail ++ v) := by
          rw [core_head]; simp
  rcases head_occ_split hash_not_in_core_tail he' with h0 | ⟨w, hw1, hw2⟩
  · exact Or.inl h0
  · refine Or.inr ⟨w, by rw [hw1, core_head], ?_⟩
    rw [hw2, core_head]
    simp

/-- An occurrence of `core` inside `marker ++ d` with `core` not occurring in
`d` itself must be at position `0`. -/
theorem core_at_markerd {d u v : Str} (hc : ¬ Occurs core d)
    (he : marker ++ d = u ++ core ++ v) : u = [] := by
  have he' : core ++ (' ' :: d) = u ++ core ++ v := by
    rw [← he, marker_eq]; simp
  rcases core_self he' with h0 | ⟨w, _, hw2⟩
  · exact h0
  · exfalso
    cases w with
    | nil =>
      have : ' ' = '#' := by
        have := hw2
        rw [core_head] at this
        simpa using congrArg List.head? this
      simp at this
    | cons a w' =>
      simp only [List.cons_append, List.cons.injEq] at hw2
      exact hc ⟨w', v, hw2.2⟩

/-- A nonempty right factor of `a ++ ['\n']` contains the final newline. -/
theorem nl_mem_right_factor {a u m : Str} (hm : m ≠ [])
    (he : a ++ ['\n'] = u ++ m) : '\n' ∈ m := by
  have hrev : '\n' :: a.reverse = m.reverse ++ u.reverse := by
    have h := congrArg List.reverse he
    simpa using h
  cases hmr : m.reverse with
  | nil =>
    exact absurd (by simpa using congrArg List.reverse hmr) hm
  | cons r0 rs =>
    rw [hmr] at hrev
    simp only [List.cons_append, List.cons.injEq] at hrev
    have hmem : r0 ∈ m.reverse := by
      rw [hmr]; exact List.mem_cons_self _ _
    rw [List.mem_reverse] at hmem
    rw [hrev.1]
    exact hmem

/-- Splitting an occurrence of a newline-free pattern `p` across `a ++ '\n' :: b`:
the occurrence lies entirely within `a` (possibly touching its end) or
entirely within `b`. -/
theorem append_nl_split {p a b u v : Str} (hnl : '\n' ∉ p)
    (he : a ++ '\n' :: b = u ++ p ++ v) :
    (∃ w, a = u ++ p ++ w) ∨ (∃ w, u = a ++ '\n' :: w ∧ b = w ++ p ++ v) := by
  have he' : a ++ '\n' :: b = (u ++ p) ++ v := by
    simpa [List.append_assoc] using he
  rcases List.append_eq_append_iff.mp he' with ⟨k, hk1, hk2⟩ | ⟨k, hk1, hk2⟩
  · -- hk1 : u ++ p = a ++ k, hk2 : '\n' :: b = k ++ v
    cases k with
    | nil =>
      refine Or.inl ⟨[], ?_⟩
      simp only [List.append_nil] at hk1
      rw [← hk1]
      simp
    | cons k0 k' =>
      simp only [List.cons_append, List.cons.injEq] at hk2
      obtain ⟨hk0, hb⟩ := hk2
      have hk1' : u ++ p = (a ++ ['\n']) ++ k' := by
        rw [hk1, ← hk0]
        simp
      rcases List.append_eq_append_iff.mp hk1' with ⟨m, hm1, hm2⟩ | ⟨m, hm1, hm2⟩
      · -- hm1 : a ++ ['\n'] = u ++ m, hm2 : p = m ++ k'
        cases m with
        | nil =>
          refine Or.inr ⟨[], ?_, ?_⟩
          · simp only [List.append_nil] at hm1
            simp [← hm1]
          · simp only [List.nil_append] at hm2
            simp [hb, hm2]
        | cons m0 m' =>
          exact absurd (hm2 ▸ List.mem_append_left k' (nl_mem_right_factor (by simp) hm1))
            hnl
      · -- hm1 : u = (a ++ ['\n']) ++ m, hm2 : k' = m ++ p
        refine Or.inr ⟨m, by simp [hm1], ?_⟩
        simp [hb, hm2]
  · -- hk1 : a = (u ++ p) ++ k, hk2 : v = k ++ '\n' :: b
    exact Or.inl ⟨k, by simp [hk1]⟩

theorem marker_cons : marker = '#' :: " Policy: ".data := by decide

theorem nl_not_in_marker : '\n' ∉ marker := by decide

theorem sep_eq : sepStr = ['\n', '\n'] := by decide

theorem nl_not_in_markerd {d : Str} (hd : '\n' ∉ d) : '\n' ∉ marker ++ d := by
  intro hmem
  rcases List.mem_append.mp hmem with h | h
  · exact nl_not_in_marker h
  · exact hd h

theorem markerd_ne_nil {d : Str} : marker ++ d ≠ [] := by
  rw [marker_cons]
  simp

theorem hdr_expand {d u v : Str} : u ++ hdr d ++ v = u ++ (marker ++ d) ++ '\n' :: v := by
  simp [hdr]

theorem occurs_core_of_markerd {X u d w : Str} (h : X = u ++ (marker ++ d) ++ w) :
    Occurs core X :=
  ⟨u, ' ' :: (d ++ w), by rw [h, marker_eq]; simp⟩

/-- An occurrence of the header for `d` inside a block headed by `d1`
(followed by anything) is either the block's own header (`d = d1`) or lies
past the header newline. -/
theorem hdr_step_block {d d1 rest u v : Str}
    (hd : '\n' ∉ d) (hd1 : '\n' ∉ d1) (hc1 : ¬ Occurs core d1)
    (he : (marker ++ d1) ++ '\n' :: rest = u ++ hdr d ++ v) :
    d = d1 ∨ ∃ w, u = (marker ++ d1) ++ '\n' :: w ∧ rest = w ++ hdr d ++ v := by
  rw [hdr_expand] at he
  rcases append_nl_split (nl_not_in_markerd hd) he with ⟨w, hw⟩ | ⟨w, hw1, hw2⟩
  · -- hw : marker ++ d1 = u ++ (marker ++ d) ++ w
    have hocc : marker ++ d1 = u ++ core ++ (' ' :: (d ++ w)) := by
      rw [hw, marker_eq]
      simp
    have hu : u = [] := core_at_markerd hc1 hocc
    subst hu
    simp only [List.nil_append] at hw
    have hd1w : d1 = d ++ w := by
      have : marker ++ d1 = marker ++ (d ++ w) := by simpa using hw
      exact List.append_cancel_left this
    cases w with
    | nil =>
      left
      simpa using hd1w.symm
    | cons w0 w' =>
      exfalso
      simp only [List.nil_append] at he
      rw [hd1w] at he
      have hrest : (w0 :: w') ++ '\n' :: rest = '\n' :: v := by
        have h2 : (marker ++ d) ++ ((w0 :: w') ++ '\n' :: rest) =
            (marker ++ d) ++ ('\n' :: v) := by
          calc (marker ++ d) ++ ((w0 :: w') ++ '\n' :: rest)
              = marker ++ (d ++ w0 :: w') ++ '\n' :: rest := by simp
            _ = marker ++ d ++ '\n' :: v := he
            _ = (marker ++ d) ++ ('\n' :: v) := by simp
        exact List.append_cancel_left h2
      have : w0 = '\n' := by
        simpa using congrArg List.head? hrest
      exact hd1 (by rw [hd1w, this]; simp)
  · -- occurrence past the newline
    right
    exact ⟨w, hw1, by rw [hw2, hdr_expand]⟩

/-- An occurrence of a header inside `t ++ '\n' :: rest` where `core` does not
occur in `t` lies past the newline. -/
theorem hdr_step_text {t rest u v d : Str} (hd : '\n' ∉ d) (hct : ¬ Occurs core t)
    (he : t ++ '\n' :: rest = u ++ hdr d ++ v) :
    ∃ w, u = t ++ '\n' :: w ∧ rest = w ++ hdr d ++ v := by
  rw [hdr_expand] at he
  rcases append_nl_split (nl_not_in_markerd hd) he with ⟨w, hw⟩ | ⟨w, hw1, hw2⟩
  · exact absurd (occurs_core_of_markerd hw) hct
  · exact ⟨w, hw1, by rw [hw2, hdr_expand]⟩

/-- An occurrence of a header inside `'\n' :: y` lies past the leading newline
(headers start with `'#'`). -/
theorem hdr_step_sep {y u v d : Str} (he : '\n' :: y = u ++ hdr d ++ v) :
    ∃ w, u = '\n' :: w ∧ y = w ++ hdr d ++ v := by
  cases u with
  | nil =>
    exfalso
    have : ('\n' : Char) = '#' := by
      have h := congrArg List.head? he
      rw [hdr] at h
      rw [marker_cons] at h
      simpa using h
    simp at this
  | cons u0 u' =>
    simp only [List.cons_append, List.cons.injEq] at he
    exact ⟨u', by rw [he.1], he.2⟩

theorem packBlocks_nil : packBlocks [] = [] := rfl

theorem packBlocks_single (q : Str × Str) : packBlocks [q] = hdr q.1 ++ q.2 := rfl

theorem packBlocks_cons₂ (q q2 : Str × Str) (qs : List (Str × Str)) :
    packBlocks (q :: q2 :: qs) = (hdr q.1 ++ q.2) ++ sepStr ++ packBlocks (q2 :: qs) := rfl

theorem packBlocks_cons_shape (q q2 : Str × Str) (qs : List (Str × Str)) :
    packBlocks (q :: q2 :: qs) =
      (marker ++ q.1) ++ '\n' :: (q.2 ++ '\n' :: '\n' :: packBlocks (q2 :: qs)) := by
  rw [packBlocks_cons₂, sep_eq, hdr]
  simp

/-- The text following a block's command text inside a packed script. -/
def packTail : List (Str × Str) → Str
  | [] => []
  | q :: qs => sepStr ++ packBlocks (q :: qs)

theorem packBlocks_cons_ne (q : Str × Str) {rest : List (Str × Str)} (h : rest ≠ []) :
    packBlocks (q :: rest) = ((hdr q.1 ++ q.2) ++ sepStr) ++ packBlocks rest := by
  cases rest with
  | nil => exact absurd rfl h
  | cons q2 qs =>
    rw [packBlocks_cons₂]

/-- The leftmost occurrence of the header for `d` in a packed script whose
earlier blocks do not mention `d` is the start of `d`'s own block. -/
theorem fm_pack {d : Str} {l1 : List (Str × Str)} (t : Str) (l2 : List (Str × Str))
    (hd : '\n' ∉ d)
    (hq : ∀ q ∈ l1, '\n' ∉ q.1 ∧ ¬ Occurs core q.1 ∧ ¬ Occurs core q.2)
    (hne : d ∉ l1.map Prod.fst) :
    firstMatch (hdr d) (packBlocks (l1 ++ (d, t) :: l2)) = some (t ++ packTail l2) := by
  induction l1 with
  | nil =>
    have hshape : packBlocks ((d, t) :: l2) = hdr d ++ (t ++ packTail l2) := by
      cases l2 with
      | nil =>
        rw [packBlocks_single]
        simp [packTail]
      | cons q2 qs =>
        rw [packBlocks_cons₂]
        simp [packTail]
    rw [List.nil_append, hshape]
    exact firstMatch_here
  | cons q l1' ih =>
    obtain ⟨hq1, hq2, hq3⟩ := hq q (List.mem_cons_self _ _)
    have hne' : ¬(d = q.1 ∨ d ∈ l1'.map Prod.fst) := by simpa using hne
    have hrest_ne : l1' ++ (d, t) :: l2 ≠ [] := by simp
    rw [List.cons_append, packBlocks_cons_ne q hrest_ne]
    have hskip : firstMatch (hdr d)
        (((hdr q.1 ++ q.2) ++ sepStr) ++ packBlocks (l1' ++ (d, t) :: l2)) =
        firstMatch (hdr d) (packBlocks (l1' ++ (d, t) :: l2)) := by
      apply firstMatch_skip
      intro u v huv
      have huv' : (marker ++ q.1) ++
          '\n' :: (q.2 ++ '\n' :: '\n' :: packBlocks (l1' ++ (d, t) :: l2)) =
          u ++ hdr d ++ v := by
        rw [← huv, sep_eq, hdr]
        simp
      rcases hdr_step_block hd hq1 hq2 huv' with heq | ⟨w, hw1, hw2⟩
      · exact absurd heq (fun h => hne' (Or.inl h))
      · rcases hdr_step_text hd hq3 hw2 with ⟨w2, hw21, hw22⟩
        rcases hdr_step_sep hw22 with ⟨w3, hw31, hw32⟩
        refine ⟨w3, ?_⟩
        rw [hw1, hw21, hw31, sep_eq, hdr]
        simp
    rw [hskip]
    exact ih (fun p hp => hq p (List.mem_cons_of_mem _ hp)) (fun h => hne' (Or.inr h))

theorem occurs_cons {p s : Str} (c : Char) (h : Occurs p s) : Occurs p (c :: s) := by
  rcases h with ⟨u, v, rfl⟩
  exact ⟨c :: u, v, by simp⟩

/-- The lazy capture runs to the end of a final block whose text does not
contain the header core. -/
theorem capture_last {t : Str} (hct : ¬ Occurs core t) :
    captureUpTo stopPat t = t := by
  apply captureUpTo_no_stop
  intro u v huv
  apply hct
  refine ⟨u ++ ['\n'], v, ?_⟩
  rw [huv, stopPat]
  simp

theorem leadsWith_stop_nl_nl (z : Str) :
    leadsWith stopPat ('\n' :: '\n' :: z) = false := by
  rw [stopPat, core_head]
  simp [leadsWith]

theorem leadsWith_stop_hit (z : Str) :
    leadsWith stopPat ('\n' :: (core ++ z)) = true := by
  rw [stopPat]
  exact leadsWith_self_append _ _

/-- The lazy capture of a non-final block stops right after the first newline
of the separator, capturing the block text plus that newline. -/
theorem capture_mid {t : Str} (hct : ¬ Occurs core t) (z : Str) :
    captureUpTo stopPat (t ++ '\n' :: '\n' :: (core ++ z)) = t ++ ['\n'] := by
  induction t with
  | nil =>
    simp only [List.nil_append]
    rw [captureUpTo, if_neg (by simp [leadsWith_stop_nl_nl])]
    rw [captureUpTo, if_pos (leadsWith_stop_hit z)]
  | cons c t' ih =>
    have hct' : ¬ Occurs core t' := fun h => hct (occurs_cons c h)
    rw [List.cons_append, captureUpTo,
      if_neg ?hno, ih hct']
    · simp
    case hno =>
      intro hl
      rcases leadsWith_iff.mp hl with ⟨r, hr⟩
      rw [stopPat] at hr
      simp only [List.cons_append, List.cons.injEq] at hr
      obtain ⟨_, hr⟩ := hr
      rcases List.append_eq_append_iff.mp hr with ⟨m, hm1, hm2⟩ | ⟨m, hm1, hm2⟩
      · -- hm1 : core = t' ++ m
        cases m with
        | nil =>
          simp only [List.append_nil] at hm1
          exact hct ⟨[c], [], by simp [hm1]⟩
        | cons m0 m' =>
          have hm0 : m0 = '\n' := by
            have hh := congrArg List.head? hm2
            simpa using hh.symm
          exact nl_not_in_core (by
            rw [hm1, ← hm0]
            exact List.mem_append_right _ (List.mem_cons_self _ _))
      · -- hm1 : t' = core ++ m
        exact hct ⟨[c], m, by simp [hm1]⟩

theorem trimLeft_length_le (s : Str) : (trimLeft s).length ≤ s.length := by
  induction s with
  | nil => simp [trimLeft]
  | cons c cs ih =>
    simp only [trimLeft]
    split
    · exact le_trans ih (by simp)
    · simp

theorem trimLeft_eq_of_length {s : Str} (h : (trimLeft s).length = s.length) :
    trimLeft s = s := by
  cases s with
  | nil => rfl
  | cons c cs =>
    by_cases hw : isWs c = true
    · exfalso
      rw [show trimLeft (c :: cs) = trimLeft cs by simp [trimLeft, hw]] at h
      have := trimLeft_length_le cs
      simp at h
      omega
    · simp [trimLeft, hw]

theorem trimRight_length_le (s : Str) : (trimRight s).length ≤ s.length := by
  rw [trimRight]
  calc (trimLeft s.reverse).reverse.length = (trimLeft s.reverse).length := by simp
    _ ≤ s.reverse.length := trimLeft_length_le _
    _ = s.length := by simp

theorem trim_self_split {s : Str} (h : trim s = s) :
    trimLeft s = s ∧ trimRight s = s := by
  have h1 : (trimRight (trimLeft s)).length = s.length := by
    rw [show trimRight (trimLeft s) = trim s from rfl, h]
  have h4 : (trimLeft s).length = s.length := by
    have h2 := trimRight_length_le (trimLeft s)
    have h3 := trimLeft_length_le s
    omega
  have h5 : trimLeft s = s := trimLeft_eq_of_length h4
  refine ⟨h5, ?_⟩
  have : trim s = trimRight s := by rw [trim, h5]
  rw [← this, h]

theorem head_not_ws {c : Char} {cs : Str} (h : trimLeft (c :: cs) = c :: cs) :
    isWs c = false := by
  by_cases hw : isWs c = true
  · exfalso
    rw [show trimLeft (c :: cs) = trimLeft cs by simp [trimLeft, hw]] at h
    have hle := trimLeft_length_le cs
    have := congrArg List.length h
    simp at this
    omega
  · simpa using hw

theorem trimLeft_nl_cons (x : Str) : trimLeft ('\n' :: x) = trimLeft x := by
  simp [trimLeft, isWs]

/-- A trimmed text followed by a single newline trims back to the text. -/
theorem trim_append_nl {t : Str} (h : trim t = t) : trim (t ++ ['\n']) = t := by
  cases t with
  | nil => decide
  | cons c cs =>
    obtain ⟨hL, hR⟩ := trim_self_split h
    have hc : isWs c = false := head_not_ws hL
    calc trim ((c :: cs) ++ ['\n'])
        = trimRight (trimLeft (c :: (cs ++ ['\n']))) := by rw [trim]; rfl
      _ = trimRight (c :: (cs ++ ['\n'])) := by
          rw [show trimLeft (c :: (cs ++ ['\n'])) = c :: (cs ++ ['\n']) by
            simp [trimLeft, hc]]
      _ = (trimLeft ('\n' :: (c :: cs).reverse)).reverse := by
          rw [trimRight]
          congr 1
          rw [show (c :: (cs ++ ['\n'])) = (c :: cs) ++ ['\n'] from rfl]
          simp
      _ = (trimLeft (c :: cs).reverse).reverse := by rw [trimLeft_nl_cons]
      _ = trimRight (c :: cs) := rfl
      _ = c :: cs := hR

/-- Every occurrence of the header for `d` inside a packed script names one of
the packed descriptions. -/
theorem hdr_occ_pack {qs : List (Str × Str)} {d u v : Str}
    (hd : '\n' ∉ d)
    (hq : ∀ q ∈ qs, '\n' ∉ q.1 ∧ ¬ Occurs core q.1 ∧ ¬ Occurs core q.2)
    (he : packBlocks qs = u ++ hdr d ++ v) :
    d ∈ qs.map Prod.fst := by
  induction qs generalizing u v with
  | nil =>
    exfalso
    rw [packBlocks_nil] at he
    have := congrArg List.length he
    simp [hdr] at this
    omega
  | cons q qs' ih =>
    obtain ⟨hq1, hq2, hq3⟩ := hq q (List.mem_cons_self _ _)
    cases qs' with
    | nil =>
      rw [packBlocks_single] at he
      have he' : (marker ++ q.1) ++ '\n' :: q.2 = u ++ hdr d ++ v := by
        rw [← he, hdr]
        simp
      rcases hdr_step_block hd hq1 hq2 he' with heq | ⟨w, _, hw2⟩
      · simp [heq]
      · exact absurd (occurs_core_of_markerd (by rw [hw2, hdr_expand])) hq3
    | cons q2 qs'' =>
      rw [packBlocks_cons_shape] at he
      rcases hdr_step_block hd hq1 hq2 he with heq | ⟨w, _, hw2⟩
      · simp [heq]
      · rcases hdr_step_text hd hq3 hw2 with ⟨w2, _, hw3⟩
        rcases hdr_step_sep hw3 with ⟨w3, _, hw4⟩
        have hmem := ih (fun p hp => hq p (List.mem_cons_of_mem _ hp)) hw4
        simpa using Or.inr (by simpa using hmem)

theorem packBlocks_head (q2 : Str × Str) (l2' : List (Str × Str)) :
    ∃ Y, packBlocks (q2 :: l2') = hdr q2.1 ++ Y := by
  cases l2' with
  | nil => exact ⟨q2.2, packBlocks_single q2⟩
  | cons a l =>
    refine ⟨q2.2 ++ sepStr ++ packBlocks (a :: l), ?_⟩
    rw [packBlocks_cons₂]
    simp

/-- Round trip of packing and extraction.  For any list of
`(description, command text)` pairs with pairwise-distinct descriptions, where
descriptions contain no newline, neither descriptions nor texts contain the
header core `"# Policy:"`, and every text is already trimmed, extracting any
listed description from the packed script returns exactly that pair's text
(including pairs whose text is empty, which are skipped by the packer). -/
theorem packPairs_extract {ps : List (Str × Str)} {d t : Str}
    (hmem : (d, t) ∈ ps)
    (hnd : (ps.map Prod.fst).Nodup)
    (hcond : ∀ q ∈ ps,
      '\n' ∉ q.1 ∧ ¬ Occurs core q.1 ∧ ¬ Occurs core q.2 ∧ trim q.2 = q.2) :
    extractBlock (packPairs ps) d = t := by
  have hd : '\n' ∉ d := (hcond _ hmem).1
  have hqcond : ∀ q ∈ ps.filter (fun it => !it.2.isEmpty),
      '\n' ∉ q.1 ∧ ¬ Occurs core q.1 ∧ ¬ Occurs core q.2 ∧ trim q.2 = q.2 :=
    fun q hq => hcond q (List.mem_filter.mp hq).1
  have hqnd : ((ps.filter (fun it => !it.2.isEmpty)).map Prod.fst).Nodup :=
    List.Nodup.sublist ((List.filter_sublist ps).map Prod.fst) hnd
  rw [packPairs]
  by_cases ht : t.isEmpty
  · have ht' : t = [] := by simpa using ht
    have hnotin : d ∉ (ps.filter (fun it => !it.2.isEmpty)).map Prod.fst := by
      intro hin
      rcases List.mem_map.mp hin with ⟨q, hq, hqd⟩
      have hqps := (List.mem_filter.mp hq).1
      have hqne := (List.mem_filter.mp hq).2
      have hqeq : q = (d, t) :=
        List.inj_on_of_nodup_map hnd hqps hmem (by simpa using hqd)
      rw [hqeq, ht'] at hqne
      simp at hqne
    have hocc : ¬ Occurs (hdr d) (packBlocks (ps.filter (fun it => !it.2.isEmpty))) := by
      rintro ⟨u, v, huv⟩
      exact hnotin (hdr_occ_pack hd
        (fun q hq => ⟨(hqcond q hq).1, (hqcond q hq).2.1, (hqcond q hq).2.2.1⟩) huv)
    rw [extractBlock, firstMatch_eq_none hocc, ht']
    rfl
  · have hmemq : (d, t) ∈ ps.filter (fun it => !it.2.isEmpty) :=
      List.mem_filter.mpr ⟨hmem, by simpa using ht⟩
    rcases List.append_of_mem hmemq with ⟨l1, l2, hsplit⟩
    have hmem_l1 : ∀ q ∈ l1, q ∈ ps.filter (fun it => !it.2.isEmpty) := by
      intro q hq
      rw [hsplit]
      exact List.mem_append_left _ hq
    have hnotl1 : d ∉ l1.map Prod.fst := by
      intro hin
      rw [hsplit] at hqnd
      rw [List.map_append] at hqnd
      rcases List.nodup_append.mp hqnd with ⟨_, _, hdisj⟩
      exact hdisj hin (by simp)
    have hfm := fm_pack t l2 hd
      (fun q hq => ⟨(hqcond q (hmem_l1 q hq)).1, (hqcond q (hmem_l1 q hq)).2.1,
        (hqcond q (hmem_l1 q hq)).2.2.1⟩) hnotl1
    obtain ⟨hdnl, hcored, hcoret, htrim⟩ := hqcond _ hmemq
    rw [extractBlock, hsplit, hfm]
    show trim (captureUpTo stopPat (t ++ packTail l2)) = t
    cases l2 with
    | nil =>
      rw [show packTail [] = [] from rfl]
      rw [List.append_nil, capture_last hcoret]
      exact htrim
    | cons q2 l2' =>
      rcases packBlocks_head q2 l2' with ⟨Y, hY⟩
      have hshape : t ++ packTail (q2 :: l2') =
          t ++ '\n' :: '\n' :: (core ++ (' ' :: (q2.1 ++ '\n' :: Y))) := by
        rw [packTail, hY, sep_eq, hdr, marker_eq]
        simp
      rw [hshape, capture_mid hcoret, trim_append_nl htrim]

end PackLemmas

/-! ### Policy descriptors and the natural sort comparator -/

/-- A policy descriptor as read from the benchmark JSON files.  Fields that
are documentation only (`info`, `Impact`) are omitted; absent JSON fields are
modelled as the empty string (both are falsy in the JavaScript guards). -/
structure Policy where
  description : Str
  ptype : Str
  reg_key : Str
  reg_item : Str
  value_data : Str
  value_type : Str
  reg_option : Str
deriving DecidableEq

/-- JavaScript `Number` on a nonempty all-digit string. -/
def digitsToNat (s : Str) : Nat :=
  s.foldl (fun n c => n * 10 + (c.toNat - '0'.toNat)) 0

/-- The text matched by the anchored regex `^(\d+(\.\d+)*)` after its leading
digit run: greedily extend with `"." ++ digits` groups.  `fuel` bounds the
recursion (`s.length` always suffices). -/
def numIdAux : Nat → Str → Str
  | 0, _ => []
  | fuel + 1, s =>
    let ds := s.takeWhile Char.isDigit
    match s.dropWhile Char.isDigit with
    | '.' :: r =>
      if (r.takeWhile Char.isDigit).isEmpty then ds
      else ds ++ '.' :: numIdAux fuel r
    | _ => ds

/-- `description.match(/^(\d+(\.\d+)*)/)` — the matched text (`match[0]`), or
`none` when the description does not start with a digit. -/
def policyId (s : Str) : Option Str :=
  match s with
  | [] => none
  | c :: _ => if c.isDigit then some (numIdAux s.length s) else none

/-- JavaScript `String.prototype.split('.')`. -/
def splitDot : Str → List Str
  | [] => [[]]
  | c :: r =>
    if c = '.' then [] :: splitDot r
    else
      match splitDot r with
      | [] => [[c]]
      | g :: gs => (c :: g) :: gs

/-- The numeric components of a matched prefix: `m.split('.').map(Number)`. -/
def idParts (m : Str) : List Nat :=
  (splitDot m).map digitsToNat

/-- Codepoint-wise lexicographic string comparison, the model of
`String.prototype.localeCompare` on these ASCII descriptions. -/
def lexCmp : Str → Str → Int
  | [], [] => 0
  | [], _ :: _ => -1
  | _ :: _, [] => 1
  | a :: as, b :: bs => if a < b then -1 else if b < a then 1 else lexCmp as bs

/-- Tail of the comparison loop once the left list is exhausted: the left
component reads as `0`. -/
def padCmpNilL : List Nat → Int
  | [] => 0
  | y :: ys => if 0 < y then -1 else padCmpNilL ys

/-- Tail of the comparison loop once the right list is exhausted: the right
component reads as `0`. -/
def padCmpNilR : List Nat → Int
  | [] => 0
  | x :: xs => if 0 < x then 1 else padCmpNilR xs

/-- The comparison loop of `naturalSort`: walk both component lists in step,
reading a missing component as `0` (`aParts[i] || 0`), and return at the first
strict difference. -/
def padCmp : List Nat → List Nat → Int
  | [], ys => padCmpNilL ys
  | x :: xs, [] => padCmpNilR (x :: xs)
  | x :: xs, y :: ys => if x < y then -1 else if y < x then 1 else padCmp xs ys

/-- The `naturalSort` comparator (identical in the standalone viewer, the
Windows 11 viewer and the Ubuntu viewer): compare dotted-numeric prefixes
component-wise, then by component count; fall back to `localeCompare` when
either description lacks a prefix. -/
def naturalSort (a b : Policy) : Int :=
  match policyId a.description, policyId b.description with
  | some am, some bm =>
    let aParts := idParts am
    let bParts := idParts bm
    let c := padCmp aParts bParts
    if c = 0 then (aParts.length : Int) - (bParts.length : Int) else c
  | _, _ => lexCmp a.description b.description

/-! ### Script generation with custom-override precedence

Embeds the Windows 11 viewer's `PolicyDetailView` effect (detail-view script
generation) and the per-policy script part of `generateScriptForPolicies`
(batch packing), both of which consult the custom-override map keyed by the
policy's numeric prefix before falling back to `reg` command generation. -/

/-- One custom-override entry: the JSON object
`{hardeningScript, auditScript, revertHardeningScript}`; absent fields are the
empty string (falsy, like `undefined`, in every guard that reads them). -/
structure Scripts where
  harden : Str
  check : Str
  revert : Str
deriving DecidableEq

/-- Which of the three scripts is being produced. -/
inductive SType
  | hardenS
  | auditS
  | revertS
deriving DecidableEq

/-- Field selection on an override entry. -/
def Scripts.sel (s : Scripts) : SType → Str
  | .hardenS => s.harden
  | .auditS => s.check
  | .revertS => s.revert

/-- The custom-override map (`customScripts`), an object keyed by numeric
prefix. -/
abbrev Overrides := List (Str × Scripts)

/-- Object property lookup `customScripts[policyId]`. -/
def findScripts (ov : Overrides) (k : Str) : Option Scripts :=
  (ov.find? fun e => decide (e.1 = k)).map Prod.snd

/-- JavaScript `x || y` on strings: the empty string is falsy. -/
def jsOr (x y : Str) : Str :=
  if x.isEmpty then y else x

def mustNotExist : Str := "MUST_NOT_EXIST".data

def policyDword : Str := "POLICY_DWORD".data

/-- `value_type === 'POLICY_DWORD' ? 'REG_DWORD' : 'REG_SZ'`. -/
def regTypeOf (vt : Str) : Str :=
  if vt = policyDword then "REG_DWORD".data else "REG_SZ".data

def regAddCmd (k i ty v : Str) : Str :=
  "reg add \"".data ++ k ++ "\" /v \"".data ++ i ++ "\" /t ".data ++ ty ++
    " /d \"".data ++ v ++ "\" /f".data

def regQueryValueCmd (k i : Str) : Str :=
  "reg query \"".data ++ k ++ "\" /v \"".data ++ i ++ ['"']

def regDeleteValueCmd (k i : Str) : Str :=
  "reg delete \"".data ++ k ++ "\" /v \"".data ++ i ++ "\" /f".data

def regDeleteKeyCmd (k : Str) : Str :=
  "reg delete \"".data ++ k ++ "\" /f".data

def regQueryKeyCmd (k : Str) : Str :=
  "reg query \"".data ++ k ++ ['"']

/-- Fallback generation of one script part in `generateScriptForPolicies`
(used when no custom override matches): branch on the script type, the
`MUST_NOT_EXIST` option and the presence of `reg_key`/`reg_item`; every
untaken branch leaves the part empty. -/
def genPack (st : SType) (p : Policy) : Str :=
  match st with
  | .hardenS =>
    if p.reg_option = mustNotExist ∧ ¬p.value_data.isEmpty then
      regDeleteKeyCmd p.value_data
    else if ¬p.reg_key.isEmpty ∧ ¬p.reg_item.isEmpty then
      regAddCmd p.reg_key p.reg_item (regTypeOf p.value_type) p.value_data
    else []
  | .auditS =>
    if p.reg_option = mustNotExist ∧ ¬p.value_data.isEmpty then
      regQueryKeyCmd p.value_data
    else if ¬p.reg_key.isEmpty ∧ ¬p.reg_item.isEmpty then
      regQueryValueCmd p.reg_key p.reg_item
    else []
  | .revertS =>
    if p.reg_option = mustNotExist ∧ ¬p.value_data.isEmpty then
      "# No automatic revert for MUST_NOT_EXIST policy: ".data ++ p.description
    else if ¬p.reg_key.isEmpty ∧ ¬p.reg_item.isEmpty then
      regDeleteValueCmd p.reg_key p.reg_item
    else []

/-- One policy's script part in `generateScriptForPolicies`: a matching custom
override wins verbatim (`customScripts[policyId][scriptType] || ''`), else the
part is generated. -/
def packPart (ov : Overrides) (st : SType) (p : Policy) : Str :=
  match policyId p.description with
  | some pid =>
    match findScripts ov pid with
    | some scr => scr.sel st
    | none => genPack st p
  | none => genPack st p

/-- `generateScriptForPolicies(policies, scriptType)`: compute each policy's
part, skip empty parts, and pack the rest under `"# Policy:"` headers joined
by blank lines. -/
def generateScriptForPolicies (ov : Overrides) (st : SType)
    (policies : List Policy) : Str :=
  packPairs (policies.map fun p => (p.description, packPart ov st p))

/-- Fallback script generation in the detail view (`PolicyDetailView`'s
effect): the same `reg` commands plus display-oriented comments, and
placeholder text when required fields are missing. -/
def genDetail (p : Policy) : Scripts :=
  if p.reg_option = mustNotExist ∧ ¬p.value_data.isEmpty then
    { harden := regDeleteKeyCmd p.value_data
      check := regQueryKeyCmd p.value_data ++
        "\n\n# This check PASSES if it returns an error (key not found).".data
      revert := ("# There is no automatic revert script for this policy." ++
        "\n# This policy requires a registry key to be absent.").data }
  else if p.reg_key.isEmpty ∨ p.reg_item.isEmpty then
    { harden := "# Invalid policy data: Missing registry key or item.".data
      check := "# Invalid policy data".data
      revert := "# Invalid policy data".data }
  else
    { harden := regAddCmd p.reg_key p.reg_item (regTypeOf p.value_type) p.value_data
      check := regQueryValueCmd p.reg_key p.reg_item
      revert := regDeleteValueCmd p.reg_key p.reg_item }

def noCustomHarden : Str := "# No custom hardening script provided.".data

def noCustomAudit : Str := "# No custom audit script provided.".data

def noCustomRevert : Str := "# No custom revert script provided.".data

/-- The three scripts shown by the detail view for a policy: a matching custom
override is used with per-field placeholder defaults
(`scripts.hardeningScript || '# No custom hardening script provided.'` etc.),
otherwise the scripts are generated. -/
def detailScripts (ov : Overrides) (p : Policy) : Scripts :=
  match policyId p.description with
  | some pid =>
    match findScripts ov pid with
    | some scr =>
      { harden := jsOr scr.harden noCustomHarden
        check := jsOr scr.check noCustomAudit
        revert := jsOr scr.revert noCustomRevert }
    | none => genDetail p
  | none => genDetail p

/-! ### JavaScript value semantics used by the registry handlers -/

/-- Leading digit-run value, `none` when there is no leading digit. -/
def digitsVal (r : Str) : Option Nat :=
  let d := r.takeWhile Char.isDigit
  if d.isEmpty then none else some (digitsToNat d)

/-- JavaScript `parseInt(s, 10)`: skip leading whitespace, read an optional
sign and then the longest digit run; `none` models `NaN`. -/
def parseIntJS (s : Str) : Option Int :=
  match s.dropWhile isWs with
  | '-' :: r => (digitsVal r).map fun n => -(n : Int)
  | '+' :: r => (digitsVal r).map fun n => (n : Int)
  | r => (digitsVal r).map fun n => (n : Int)

/-- JavaScript `ToNumber` on a string, restricted to the integer grammar these
registry values inhabit: trimmed empty is `0`, an optional sign followed by
digits only is that integer, anything else is `NaN` (`none`). -/
def jsToNumber (s : Str) : Option Int :=
  let t := trim s
  if t.isEmpty then some 0
  else
    match t with
    | '-' :: r =>
      if ¬r.isEmpty ∧ r.all Char.isDigit then some (-(digitsToNat r : Int)) else none
    | '+' :: r =>
      if ¬r.isEmpty ∧ r.all Char.isDigit then some ((digitsToNat r : Int)) else none
    | r => if r.all Char.isDigit then some ((digitsToNat r : Int)) else none

/-- A JavaScript value as returned by the registry module or produced by
`parseInt`: a number (`num none` is `NaN`) or a string. -/
inductive JSVal
  | num (n : Option Int)
  | str (s : Str)
deriving DecidableEq

/-- JavaScript loose equality `==` on the number/string domain: numbers
compare numerically (`NaN` equals nothing), strings compare as text, and a
string facing a number is converted with `ToNumber`. -/
def looseEq : JSVal → JSVal → Bool
  | .num a, .num b =>
    match a, b with
    | some x, some y => decide (x = y)
    | _, _ => false
  | .str a, .str b => decide (a = b)
  | .str s, .num n | .num n, .str s =>
    match n, jsToNumber s with
    | some x, some y => decide (x = y)
    | _, _ => false

/-! ### The Electron IPC registry handlers (`hardening-app/main.js`) -/

/-- Outcome of one promised registry operation: resolution or rejection with
an error message. -/
inductive RegOutcome
  | ok
  | err (msg : Str)

/-- Result shape `{success, message}` of the IPC handlers. -/
structure ExecResult where
  success : Bool
  message : Str
deriving DecidableEq

/-- The `revert-hardening` handler: validate the policy, delete the value at
`reg_key\\reg_item`, and reclassify a rejection whose message contains
`"find the key"` as success (the value was already absent). -/
def revertHardening (p : Policy) (del : RegOutcome) : ExecResult :=
  if p.reg_key.isEmpty ∨ p.reg_item.isEmpty then
    ⟨false, "Invalid policy data for reverting.".data⟩
  else
    match del with
    | .ok => ⟨true, "Hardening reverted successfully!".data⟩
    | .err m =>
      if containsSeq "find the key".data m then
        ⟨true, "Reverted (value was not set).".data⟩
      else
        ⟨false, "Error: ".data ++ m ++ ". Try running as Administrator.".data⟩

/-- The registry action chosen by the `apply-hardening` handler before any
I/O: reject invalid policies, delete the key for `REG_CHECK`/`MUST_NOT_EXIST`
policies, and otherwise write the typed value (a `POLICY_DWORD` value is
`parseInt`ed to a number; anything else is written as text). -/
inductive RegWrite
  | invalid
  | delKey (k : Str)
  | putVal (key item : Str) (v : JSVal) (rtype : Str)
deriving DecidableEq

def applyAct (p : Policy) : RegWrite :=
  if p.reg_key.isEmpty ∨ p.reg_item.isEmpty then .invalid
  else if p.ptype = "REG_CHECK".data ∧ p.reg_option = mustNotExist then
    .delKey p.value_data
  else
    .putVal p.reg_key p.reg_item
      (if regTypeOf p.value_type = "REG_DWORD".data then .num (parseIntJS p.value_data)
       else .str p.value_data)
      (regTypeOf p.value_type)

/-- What `regedit.list` reported to the `check-status` handler: a listing
(does the key exist; the item's value if present) or a thrown error. -/
inductive Probe
  | listed (keyExists : Bool) (itemVal : Option JSVal)
  | threw (msg : Str)

/-- Result of `check-status`: the success flag and the status classification
(the human-readable message is not modelled). -/
structure CheckResult where
  success : Bool
  status : Str
deriving DecidableEq

/-- The `check-status` handler: `MUST_NOT_EXIST` policies are compliant iff
the listed key is absent; otherwise the key and item must exist and the
current value is compared against the typed expected value with `==`; a
thrown error mentioning `"find the key"` is classified `Key Not Found`. -/
def checkStatus (p : Policy) (probe : Probe) : CheckResult :=
  match probe with
  | .threw m =>
    if containsSeq "find the key".data m then ⟨false, "Key Not Found".data⟩
    else ⟨false, "Error".data⟩
  | .listed kex itemVal =>
    if p.reg_option = mustNotExist then
      if kex then ⟨false, "Not Compliant".data⟩ else ⟨true, "Compliant".data⟩
    else if p.reg_key.isEmpty ∨ p.reg_item.isEmpty then ⟨false, "Error".data⟩
    else if ¬kex then ⟨false, "Key Not Found".data⟩
    else
      match itemVal with
      | none => ⟨false, "Value Not Found".data⟩
      | some cur =>
        let expected : JSVal :=
          if p.value_type = policyDword then .num (parseIntJS p.value_data)
          else .str p.value_data
        if looseEq cur expected then ⟨true, "Compliant".data⟩
        else ⟨false, "Not Compliant".data⟩

/-! ### The POSIX elevation wrapper (`frontend/main.js`, `executeScript`) -/

/-- `script.replace(/'/g, "'\\''")`: every single quote becomes the four
characters `'\''`. -/
def escapeScript : Str → Str
  | [] => []
  | c :: cs => (if c = '\'' then "'\\''".data else [c]) ++ escapeScript cs

/-- The first pipeline stage: `echo '{password}'`. -/
def echoStage (pw : Str) : Str :=
  "echo '".data ++ pw ++ "'".data

/-- The second pipeline stage: `sudo -S -p '' sh -c '{escaped script}'`; a
function of the script alone. -/
def sudoStage (script : Str) : Str :=
  "sudo -S -p '' sh -c '".data ++ escapeScript script ++ ['\'']

/-- The wrapped command built on non-Windows platforms when a password is
supplied. -/
def buildCommand (pw script : Str) : Str :=
  "echo '".data ++ pw ++ "' | sudo -S -p '' sh -c '".data ++
    escapeScript script ++ ['\'']

/-- Characters that end an unquoted shell word. -/
def isShellDelim (c : Char) : Bool :=
  c = ' ' || c = '\t' || c = '\n' || c = '|' || c = '&' || c = ';' ||
    c = '<' || c = '>' || c = '(' || c = ')'

/-- Lexer state for the shell word parser: outside any quote, inside single
quotes, or immediately after an unquoted backslash. -/
inductive ShMode
  | outside
  | quoted
  | escaped
deriving DecidableEq

/-- A POSIX-shell word lexer covering the constructs the wrapper uses: single
quotes (everything literal until the closing quote) and backslash escapes
outside quotes; an unquoted delimiter ends the word.  Returns the word's value
and the unconsumed input, or `none` on an unterminated construct. -/
def shParse : ShMode → Str → Option (Str × Str)
  | .quoted, [] => none
  | .quoted, c :: rest =>
    if c = '\'' then shParse .outside rest
    else (shParse .quoted rest).map fun pr => (c :: pr.1, pr.2)
  | .escaped, [] => none
  | .escaped, c :: rest => (shParse .outside rest).map fun pr => (c :: pr.1, pr.2)
  | .outside, [] => some ([], [])
  | .outside, c :: rest =>
    if c = '\'' then shParse .quoted rest
    else if c = '\\' then shParse .escaped rest
    else if isShellDelim c then some ([], c :: rest)
    else (shParse .outside rest).map fun pr => (c :: pr.1, pr.2)

/-! ### The report-generation loop (`handleGenerateReport`) -/

/-- A stored template: its policies in stored order and its three packed
scripts. -/
structure Template where
  policies : List Policy
  harden_script : Str
  check_script : Str
  revert_script : Str

/-- The three report actions. -/
inductive RAction
  | harden
  | audit
  | revert

/-- Which packed script a report action runs. -/
def actionScript (t : Template) : RAction → Str
  | .harden => t.harden_script
  | .audit => t.check_script
  | .revert => t.revert_script

/-- The per-policy loop of `handleGenerateReport`: iterate the template's
policies in stored order, extract each command block, skip empty commands, and
record `(description, Passed?)` per executed command (`exec` abstracts whether
the bridge call succeeded). -/
def runReport (t : Template) (a : RAction) (exec : Str → Bool) :
    List (Str × Bool) :=
  t.policies.filterMap fun p =>
    let cmd := extractBlock (actionScript t a) p.description
    if cmd.isEmpty then none else some (p.description, exec cmd)

/-! ### Supporting lemmas for the claim theorems -/

theorem firstMatch_isSome_of_occurs {pat s : Str} (h : Occurs pat s) :
    (firstMatch pat s).isSome = true := by
  rcases h with ⟨u, v, rfl⟩
  induction u with
  | nil =>
    rw [List.nil_append, firstMatch_here]
    rfl
  | cons c u' ih =>
    have : firstMatch pat ((c :: u') ++ pat ++ v) =
        if leadsWith pat ((c :: u') ++ pat ++ v) then
          some (((c :: u') ++ pat ++ v).drop pat.length)
        else firstMatch pat (u' ++ pat ++ v) := by
      simp [firstMatch]
    rw [this]
    split
    · rfl
    · exact ih

theorem not_occurs_of_containsSeq_false {pat s : Str}
    (h : containsSeq pat s = false) : ¬ Occurs pat s := by
  intro hocc
  rw [containsSeq, firstMatch_isSome_of_occurs hocc] at h
  cases h

theorem containsSeq_middle (a t b : Str) : containsSeq t (a ++ t ++ b) = true :=
  firstMatch_isSome_of_occurs ⟨a, b, rfl⟩

/-- `NaN` is loosely equal to nothing. -/
theorem looseEq_nan (cur : JSVal) : looseEq cur (.num none) = false := by
  cases cur with
  | num a => cases a <;> rfl
  | str s => rfl

/-- Parsing the single-quoted escape of `s` in quote mode consumes the whole
escape, producing `s` literally, and continues with the word after the closing
quote. -/
theorem shParse_quoted (s : Str) :
    ∀ r, shParse .quoted (escapeScript s ++ '\'' :: r) =
      (shParse .outside r).map fun pr => (s ++ pr.1, pr.2) := by
  induction s with
  | nil =>
    intro r
    rw [show escapeScript [] = [] from rfl, List.nil_append]
    rw [show shParse .quoted ('\'' :: r) = shParse .outside r from rfl]
    cases shParse .outside r with
    | none => rfl
    | some pr => rfl
  | cons c cs ih =>
    intro r
    by_cases hc : c = '\''
    · subst hc
      have h1 : escapeScript ('\'' :: cs) ++ '\'' :: r =
          '\'' :: '\\' :: '\'' :: '\'' :: (escapeScript cs ++ '\'' :: r) := by
        rw [show escapeScript ('\'' :: cs) =
          '\'' :: '\\' :: '\'' :: '\'' :: escapeScript cs from rfl]
        simp
      rw [h1]
      rw [show shParse .quoted ('\'' :: '\\' :: '\'' :: '\'' :: (escapeScript cs ++ '\'' :: r)) =
        (shParse .quoted (escapeScript cs ++ '\'' :: r)).map
          (fun pr => ('\'' :: pr.1, pr.2)) from rfl]
      rw [ih r]
      cases shParse .outside r with
      | none => rfl
      | some pr => rfl
    · rw [show escapeScript (c :: cs) = c :: escapeScript cs from by
        simp [escapeScript, hc]]
      rw [List.cons_append]
      rw [show shParse .quoted (c :: (escapeScript cs ++ '\'' :: r)) =
        (shParse .quoted (escapeScript cs ++ '\'' :: r)).map
          (fun pr => (c :: pr.1, pr.2)) from by
          rw [show shParse .quoted (c :: (escapeScript cs ++ '\'' :: r)) =
            if c = '\'' then shParse .outside (escapeScript cs ++ '\'' :: r)
            else (shParse .quoted (escapeScript cs ++ '\'' :: r)).map
              (fun pr => (c :: pr.1, pr.2)) from rfl, if_neg hc]]
      rw [ih r]
      cases shParse .outside r with
      | none => rfl
      | some pr => rfl

theorem report_names_aux (script : Str) (exec : Str → Bool) :
    ∀ ps : List Policy,
      ((ps.filterMap fun p =>
        let cmd := extractBlock script p.description
        if cmd.isEmpty then none else some (p.description, exec cmd)).map Prod.fst) =
      ((ps.filter fun p => !(extractBlock script p.description).isEmpty).map
        Policy.description) := by
  intro ps
  induction ps with
  | nil => rfl
  | cons p ps ih =>
    simp only [List.filterMap_cons, List.filter_cons]
    by_cases hcmd : (extractBlock script p.description).isEmpty
    · simp [hcmd]
      simpa using ih
    · simp [hcmd]
      simpa using ih

/-- Zero-pad a component list on the right to length `n`. -/
def padTo (n : Nat) (xs : List Nat) : List Nat :=
  xs ++ List.replicate (n - xs.length) 0

/-- The mathematical order the comparator is checked against: compare the
zero-padded component lists lexicographically; on equal padded lists the
shorter original list comes first. -/
def PadLt (xs ys : List Nat) : Prop :=
  List.Lex (· < ·) (padTo (max xs.length ys.length) xs)
      (padTo (max xs.length ys.length) ys) ∨
    (padTo (max xs.length ys.length) xs = padTo (max xs.length ys.length) ys ∧
      xs.length < ys.length)

theorem padTo_zero (xs : List Nat) : padTo 0 xs = xs := by
  simp [padTo]

theorem padTo_succ_nil (m : Nat) : padTo (m + 1) [] = 0 :: padTo m [] := by
  simp [padTo, List.replicate_succ]

theorem padTo_succ_cons (m : Nat) (x : Nat) (xs : List Nat) :
    padTo (m + 1) (x :: xs) = x :: padTo m xs := by
  simp [padTo, Nat.succ_sub_succ]

theorem padTo_length {n : Nat} {xs : List Nat} (h : xs.length ≤ n) :
    (padTo n xs).length = n := by
  simp [padTo]
  omega

theorem padCmp_nil_cons (y : Nat) (ys : List Nat) :
    padCmp [] (y :: ys) = if 0 < y then -1 else padCmp [] ys := rfl

theorem padCmp_cons_nil (x : Nat) (xs : List Nat) :
    padCmp (x :: xs) [] = if 0 < x then 1 else padCmp xs [] := by
  cases xs <;> rfl

theorem padCmp_cons_cons (x y : Nat) (xs ys : List Nat) :
    padCmp (x :: xs) (y :: ys) =
      if x < y then -1 else if y < x then 1 else padCmp xs ys := rfl

theorem padCmp_pad : ∀ (n : Nat) (xs ys : List Nat),
    padCmp (padTo n xs) (padTo n ys) = padCmp xs ys := by
  intro n
  induction n with
  | zero =>
    intro xs ys
    rw [padTo_zero, padTo_zero]
  | succ m ih =>
    intro xs ys
    cases xs with
    | nil =>
      cases ys with
      | nil =>
        rw [padTo_succ_nil, padCmp_cons_cons]
        simp only [Nat.lt_irrefl, if_false]
        rw [ih]
      | cons y ys' =>
        rw [padTo_succ_nil, padTo_succ_cons, padCmp_cons_cons, padCmp_nil_cons]
        rw [if_neg (Nat.not_lt_zero y), ih]
    | cons x xs' =>
      cases ys with
      | nil =>
        rw [padTo_succ_cons, padTo_succ_nil, padCmp_cons_cons, padCmp_cons_nil]
        rw [if_neg (Nat.not_lt_zero x), ih]
      | cons y ys' =>
        rw [padTo_succ_cons, padTo_succ_cons, padCmp_cons_cons, padCmp_cons_cons, ih]

theorem padCmp_lex : ∀ xs ys : List Nat, xs.length = ys.length →
    (padCmp xs ys = -1 ↔ List.Lex (· < ·) xs ys) := by
  intro xs
  induction xs with
  | nil =>
    intro ys hlen
    cases ys with
    | nil =>
      constructor
      · intro h
        simp [padCmp, padCmpNilL] at h
      · intro h
        cases h
    | cons y ys' => simp at hlen
  | cons x xs' ih =>
    intro ys hlen
    cases ys with
    | nil => simp at hlen
    | cons y ys' =>
      simp only [List.length_cons, Nat.add_right_cancel_iff] at hlen
      rw [padCmp_cons_cons]
      by_cases hxy : x < y
      · rw [if_pos hxy]
        exact ⟨fun _ => List.Lex.rel hxy, fun _ => rfl⟩
      · rw [if_neg hxy]
        by_cases hyx : y < x
        · rw [if_pos hyx]
          constructor
          · intro h
            simp at h
          · intro h
            cases h with
            | rel hr => exact absurd hr hxy
            | cons ht => omega
        · rw [if_neg hyx]
          have hxe : x = y := by omega
          subst hxe
          rw [ih ys' hlen]
          constructor
          · intro h
            exact List.Lex.cons h
          · intro h
            cases h with
            | rel hr => exact absurd hr (by omega)
            | cons ht => exact ht

theorem padCmp_eq_zero : ∀ xs ys : List Nat, xs.length = ys.length →
    (padCmp xs ys = 0 ↔ xs = ys) := by
  intro xs
  induction xs with
  | nil =>
    intro ys hlen
    cases ys with
    | nil => simp [padCmp, padCmpNilL]
    | cons y ys' => simp at hlen
  | cons x xs' ih =>
    intro ys hlen
    cases ys with
    | nil => simp at hlen
    | cons y ys' =>
      simp only [List.length_cons, Nat.add_right_cancel_iff] at hlen
      rw [padCmp_cons_cons]
      by_cases hxy : x < y
      · rw [if_pos hxy]
        constructor
        · intro h
          simp at h
        · intro h
          simp only [List.cons.injEq] at h
          omega
      · rw [if_neg hxy]
        by_cases hyx : y < x
        · rw [if_pos hyx]
          constructor
          · intro h
            simp at h
          · intro h
            simp only [List.cons.injEq] at h
            omega
        · rw [if_neg hyx]
          have hxe : x = y := by omega
          subst hxe
          rw [ih ys' hlen]
          simp

theorem padCmp_vals : ∀ xs ys : List Nat,
    padCmp xs ys = -1 ∨ padCmp xs ys = 0 ∨ padCmp xs ys = 1 := by
  intro xs
  induction xs with
  | nil =>
    intro ys
    induction ys with
    | nil => simp [padCmp, padCmpNilL]
    | cons y ys' ihy =>
      rw [padCmp_nil_cons]
      split
      · simp
      · exact ihy
  | cons x xs' ih =>
    intro ys
    cases ys with
    | nil =>
      rw [padCmp_cons_nil]
      split
      · simp
      · exact ih []
    | cons y ys' =>
      rw [padCmp_cons_cons]
      split
      · simp
      · split
        · simp
        · exact ih ys'

/-! ### Claim theorems -/

/-- Claim C6 (amended): a report run does not sort.  `handleGenerateReport`
iterates `template.policies` in stored order, so the per-policy results appear
in the template's stored policy order restricted to the policies whose
extracted command block is non-empty — not in re-computed natural
numeric-prefix order. -/
theorem c6_report_order (t : Template) (a : RAction) (exec : Str → Bool) :
    (runReport t a exec).map Prod.fst =
      (t.policies.filter fun p =>
        !(extractBlock (actionScript t a) p.description).isEmpty).map
        Policy.description := by
  rw [runReport]
  exact report_names_aux (actionScript t a) exec t.policies

/-- Claim C6 counterexample to the claim as stated: a template stored with
`"2.10 B"` before `"2.9 A"` produces its per-policy results in that stored
order, although the natural comparator places `"2.10 B"` after `"2.9 A"` —
the run does not first sort into natural numeric-prefix order. -/
theorem c6_sorted_order_fails :
    (runReport
      ⟨[⟨"2.10 B".data, [], [], [], [], [], []⟩,
        ⟨"2.9 A".data, [], [], [], [], [], []⟩],
        "# Policy: 2.10 B\ncmdB\n\n# Policy: 2.9 A\ncmdA".data, [], []⟩
      .harden (fun _ => true)).map Prod.fst =
      ["2.10 B".data, "2.9 A".data] ∧
    naturalSort ⟨"2.10 B".data, [], [], [], [], [], []⟩
      ⟨"2.9 A".data, [], [], [], [], [], []⟩ = 1 ∧
    ("2.10 B".data : Str) ≠ "2.9 A".data := by
  refine ⟨?_, ?_, ?_⟩ <;> decide

/-- Claim C2: idempotent revert.  For every `VALUE_SETTING` policy (non-empty
`reg_key` and `reg_item`, per the data-model invariant) whose value is already
absent — the underlying delete rejects with the registry module's
`"find the key"` not-found message — `revert-hardening` returns
`success = true` rather than a failure. -/
theorem c2_idempotent_revert (p : Policy) (m : Str)
    (hk : ¬p.reg_key.isEmpty) (hi : ¬p.reg_item.isEmpty)
    (hnf : containsSeq "find the key".data m = true) :
    (revertHardening p (.err m)).success = true := by
  rw [revertHardening, if_neg (by simp [hk, hi])]
  simp [hnf]

theorem c2_idempotent_revert_witness :
    (revertHardening
      ⟨"1.1 T".data, "REGISTRY_SETTING".data, "HKLM\\Software\\X".data,
        "Item".data, "1".data, "POLICY_DWORD".data, []⟩
      (.err "unable to find the key".data)).success = true :=
  c2_idempotent_revert _ _ (by decide) (by decide) (by decide)

/-- Claim C3: elevation wrapper opacity.  On POSIX platforms the wrapped
command splits as an `echo` stage carrying the secret piped into a `sudo`
stage that depends on the script alone (the secret reaches `sudo -S` on stdin,
never on the elevated command's argv), and the escaped script is one opaque
single-quoted shell word: lexing it yields exactly the original script with
nothing left over, so no quoting inside the script can break out of the
wrapper. -/
theorem c3_wrapper_opaque (script pw : Str) :
    buildCommand pw script = echoStage pw ++ " | ".data ++ sudoStage script ∧
    shParse .outside ('\'' :: escapeScript script ++ ['\'']) =
      some (script, []) := by
  constructor
  · rw [buildCommand, echoStage, sudoStage]
    rw [show ("' | sudo -S -p '' sh -c '".data : Str) =
      "'".data ++ " | ".data ++ "sudo -S -p '' sh -c '".data from by decide]
    simp
  · rw [show shParse .outside ('\'' :: escapeScript script ++ ['\'']) =
      shParse .quoted (escapeScript script ++ '\'' :: []) from rfl]
    rw [shParse_quoted script []]
    simp [shParse]

/-- Claim C8: type-aware equality.  Checking a `VALUE_SETTING` policy with
`valueType = POLICY_DWORD` and `expectedValue = "1"` yields `Compliant` with
`success = true` both when the observed registry value is the number `1` and
when it is the string `"1"` (loose `==` after `parseInt` normalization). -/
theorem c8_type_aware_equality (p : Policy)
    (hvt : p.value_type = policyDword) (hvd : p.value_data = "1".data)
    (hro : p.reg_option ≠ mustNotExist)
    (hk : ¬p.reg_key.isEmpty) (hi : ¬p.reg_item.isEmpty) :
    checkStatus p (.listed true (some (.num (some 1)))) =
      ⟨true, "Compliant".data⟩ ∧
    checkStatus p (.listed true (some (.str "1".data))) =
      ⟨true, "Compliant".data⟩ := by
  have hexp : (if p.value_type = policyDword then JSVal.num (parseIntJS p.value_data)
      else JSVal.str p.value_data) = JSVal.num (some 1) := by
    rw [if_pos hvt, hvd]
    decide
  constructor <;>
  · simp only [checkStatus]
    rw [if_neg hro, if_neg (by simp [hk, hi]), if_neg (by simp), hexp]
    decide

theorem c8_type_aware_equality_witness :
    checkStatus
      ⟨"1.1 T".data, "REGISTRY_SETTING".data, "K".data, "I".data,
        "1".data, "POLICY_DWORD".data, []⟩
      (.listed true (some (.num (some 1)))) = ⟨true, "Compliant".data⟩ ∧
    checkStatus
      ⟨"1.1 T".data, "REGISTRY_SETTING".data, "K".data, "I".data,
        "1".data, "POLICY_DWORD".data, []⟩
      (.listed true (some (.str "1".data))) = ⟨true, "Compliant".data⟩ :=
  c8_type_aware_equality _ (by decide) (by decide) (by decide) (by decide)
    (by decide)

/-- Claim C9 (amended): no `TypeMismatch` is surfaced.  For every
`VALUE_SETTING` policy declaring `POLICY_DWORD` whose `expectedValue` does not
parse as an integer (`parseInt` gives `NaN`), `check-status` silently compares
against `NaN` — which equals nothing — and classifies any found value
`Not Compliant`, while `apply-hardening` passes the `NaN` parse result to the
registry write; neither operation produces a type-error classification. -/
theorem c9_no_type_mismatch (p : Policy) (cur : JSVal)
    (hvt : p.value_type = policyDword) (hnan : parseIntJS p.value_data = none)
    (hro : p.reg_option ≠ mustNotExist)
    (hk : ¬p.reg_key.isEmpty) (hi : ¬p.reg_item.isEmpty) :
    checkStatus p (.listed true (some cur)) = ⟨false, "Not Compliant".data⟩ ∧
    applyAct p = .putVal p.reg_key p.reg_item (.num none) "REG_DWORD".data := by
  have hrt : regTypeOf p.value_type = "REG_DWORD".data := by
    rw [regTypeOf, if_pos hvt]
  constructor
  · simp only [checkStatus]
    rw [if_neg hro, if_neg (by simp [hk, hi]), if_neg (by simp)]
    rw [show (if p.value_type = policyDword then JSVal.num (parseIntJS p.value_data)
      else JSVal.str p.value_data) = JSVal.num none from by rw [if_pos hvt, hnan]]
    rw [looseEq_nan cur]
    rfl
  · rw [applyAct, if_neg (by simp [hk, hi]),
      if_neg (fun h => hro h.2), hrt, if_pos rfl, hnan]

theorem c9_no_type_mismatch_witness :
    checkStatus
      ⟨"1.1 T".data, "REGISTRY_SETTING".data, "K".data, "I".data,
        "abc".data, "POLICY_DWORD".data, []⟩
      (.listed true (some (.num (some 5)))) = ⟨false, "Not Compliant".data⟩ ∧
    applyAct
      ⟨"1.1 T".data, "REGISTRY_SETTING".data, "K".data, "I".data,
        "abc".data, "POLICY_DWORD".data, []⟩ =
      .putVal "K".data "I".data (.num none) "REG_DWORD".data :=
  c9_no_type_mismatch _ _ (by decide) (by decide) (by decide) (by decide)
    (by decide)

/-- Claim C9 counterexample to the claim as stated: with the unparseable
`POLICY_DWORD` expected value `"abc"`, checking against an observed number `5`
yields the ordinary verdict `Not Compliant` (not a surfaced type error), and
the apply path writes the `NaN` parse result — the value is coerced, no
`TypeMismatch` error exists. -/
theorem c9_type_mismatch_fails :
    checkStatus
      ⟨"2.2 T".data, "REGISTRY_SETTING".data, "K2".data, "I2".data,
        "abc".data, "POLICY_DWORD".data, []⟩
      (.listed true (some (.num (some 5)))) = ⟨false, "Not Compliant".data⟩ ∧
    applyAct
      ⟨"2.2 T".data, "REGISTRY_SETTING".data, "K2".data, "I2".data,
        "abc".data, "POLICY_DWORD".data, []⟩ =
      .putVal "K2".data "I2".data (.num none) "REG_DWORD".data ∧
    parseIntJS "abc".data = none := by
  refine ⟨?_, ?_, ?_⟩ <;> decide

/-- Claim C4 (amended): the comparator orders parseable dotted-numeric
prefixes component-wise numerically with zero-padding and then by component
count (`PadLt`), returns `0` on identical component lists — policies with
equal prefixes are not tie-broken by description text — and falls back to
lexical comparison of the full descriptions when either prefix is missing. -/
theorem c4_natural_order :
    (∀ (a b : Policy) (am bm : Str),
      policyId a.description = some am → policyId b.description = some bm →
      ((naturalSort a b < 0 ↔ PadLt (idParts am) (idParts bm)) ∧
       (naturalSort a b = 0 ↔ idParts am = idParts bm))) ∧
    (∀ a b : Policy,
      policyId a.description = none ∨ policyId b.description = none →
      naturalSort a b = lexCmp a.description b.description) := by
  constructor
  · intro a b am bm ham hbm
    have hred : naturalSort a b =
        (if padCmp (idParts am) (idParts bm) = 0 then
          ((idParts am).length : Int) - ((idParts bm).length : Int)
        else padCmp (idParts am) (idParts bm)) := by
      rw [naturalSort, ham, hbm]
    set A := idParts am with hA
    set B := idParts bm with hB
    set n := max A.length B.length with hn
    have hlen : (padTo n A).length = (padTo n B).length := by
      rw [padTo_length (le_max_left _ _), padTo_length (le_max_right _ _)]
    have hlex := padCmp_lex (padTo n A) (padTo n B) hlen
    have heq0 := padCmp_eq_zero (padTo n A) (padTo n B) hlen
    rw [padCmp_pad] at hlex heq0
    have hPadLt : PadLt A B ↔
        (List.Lex (· < ·) (padTo n A) (padTo n B) ∨
          (padTo n A = padTo n B ∧ A.length < B.length)) := Iff.rfl
    rcases padCmp_vals A B with hc | hc | hc
    · rw [hred, hc, if_neg (by omega)]
      constructor
      · exact ⟨fun _ => hPadLt.mpr (Or.inl (hlex.mp hc)), fun _ => by omega⟩
      · refine ⟨fun h0 => absurd h0 (by omega), fun hab => ?_⟩
        exact absurd (heq0.mpr (by rw [hab])) (by omega)
    · rw [hred, hc, if_pos rfl]
      have hpe : padTo n A = padTo n B := heq0.mp hc
      have hnl : ¬ List.Lex (· < ·) (padTo n A) (padTo n B) := fun hl => by
        have := hlex.mpr hl
        omega
      constructor
      · constructor
        · intro hlt
          exact hPadLt.mpr (Or.inr ⟨hpe, by omega⟩)
        · intro hPad
          rcases hPadLt.mp hPad with hl | ⟨_, hlen'⟩
          · exact absurd hl hnl
          · omega
      · constructor
        · intro h0
          have hAB : A.length = B.length := by omega
          exact (List.append_inj hpe hAB).1
        · intro hab
          rw [hab]
          omega
    · rw [hred, hc, if_neg (by omega)]
      constructor
      · refine ⟨fun h => absurd h (by omega), fun hPad => ?_⟩
        rcases hPadLt.mp hPad with hl | ⟨hpe, _⟩
        · exact absurd (hlex.mpr hl) (by omega)
        · exact absurd (heq0.mpr hpe) (by omega)
      · refine ⟨fun h => absurd h (by omega), fun hab => ?_⟩
        exact absurd (heq0.mpr (by rw [hab])) (by omega)
  · intro a b h
    rcases h with h | h
    · cases hb : policyId b.description <;> simp [naturalSort, h, hb]
    · cases ha : policyId a.description <;> simp [naturalSort, ha, h]

/-- Claim C4 counterexample to the tie-break clause: two policies with the
same numeric prefix `"2.1"` but different descriptions compare equal
(comparator returns `0`) although lexical comparison of the descriptions is
nonzero — the comparator never tie-breaks by full description text. -/
theorem c4_tiebreak_fails :
    naturalSort ⟨"2.1 Foo".data, [], [], [], [], [], []⟩
        ⟨"2.1 Bar".data, [], [], [], [], [], []⟩ = 0 ∧
    ("2.1 Foo".data : Str) ≠ "2.1 Bar".data ∧
    lexCmp "2.1 Foo".data "2.1 Bar".data ≠ 0 := by
  refine ⟨?_, ?_, ?_⟩ <;> decide

theorem c4_natural_order_witness :
    (naturalSort ⟨"2.9 A".data, [], [], [], [], [], []⟩
        ⟨"2.10 B".data, [], [], [], [], [], []⟩ < 0 ↔
      PadLt (idParts "2.9".data) (idParts "2.10".data)) ∧
    (naturalSort ⟨"2.9 A".data, [], [], [], [], [], []⟩
        ⟨"2.10 B".data, [], [], [], [], [], []⟩ = 0 ↔
      idParts "2.9".data = idParts "2.10".data) :=
  c4_natural_order.1 _ _ _ _ (by decide) (by decide)

/-- Claim C5 (amended): override precedence — when a custom override exists
for the policy's numeric prefix, generated output is never used: the batch
packer returns the override field verbatim (empty fields give an empty part),
both the packer and the detail view depend only on the policy's description
(the registry fields are irrelevant), and the detail view shows a non-empty
override field verbatim while replacing an empty field with a fixed
placeholder comment. -/
theorem c5_override_precedence (ov : Overrides) (p q : Policy) (st : SType)
    (pid : Str) (scr : Scripts)
    (hpid : policyId p.description = some pid)
    (hov : findScripts ov pid = some scr)
    (hq : q.description = p.description) :
    packPart ov st p = scr.sel st ∧
    packPart ov st q = packPart ov st p ∧
    detailScripts ov p = detailScripts ov q ∧
    (¬scr.harden.isEmpty → (detailScripts ov p).harden = scr.harden) := by
  have h1 : packPart ov st p = scr.sel st := by
    simp only [packPart, hpid, hov]
  have h4 : detailScripts ov p =
      ⟨jsOr scr.harden noCustomHarden, jsOr scr.check noCustomAudit,
        jsOr scr.revert noCustomRevert⟩ := by
    simp only [detailScripts, hpid, hov]
  refine ⟨h1, ?_, ?_, ?_⟩
  · rw [h1]
    simp only [packPart, hq, hpid, hov]
  · rw [h4]
    simp only [detailScripts, hq, hpid, hov]
  · intro hne
    rw [h4]
    show jsOr scr.harden noCustomHarden = scr.harden
    rw [jsOr, if_neg hne]

/-- Claim C5 counterexample to "verbatim even when the override's fields are
empty strings": with an override entry whose fields are all empty, the detail
view does not return the empty harden field verbatim — it substitutes the
fixed placeholder comment. -/
theorem c5_verbatim_fails :
    (detailScripts [("1.1".data, ⟨[], [], []⟩)]
        ⟨"1.1 Test".data, [], "K".data, "I".data, "1".data, [], []⟩).harden ≠
      (⟨[], [], []⟩ : Scripts).harden ∧
    (detailScripts [("1.1".data, ⟨[], [], []⟩)]
        ⟨"1.1 Test".data, [], "K".data, "I".data, "1".data, [], []⟩).harden =
      noCustomHarden := by
  refine ⟨?_, ?_⟩ <;> decide

theorem c5_override_precedence_witness :
    packPart [("1.2".data, ⟨"custom harden".data, "custom audit".data,
        "custom revert".data⟩)] .hardenS
      ⟨"1.2 X".data, [], "K".data, "I".data, "1".data, "POLICY_DWORD".data, []⟩ =
      (⟨"custom harden".data, "custom audit".data, "custom revert".data⟩ :
        Scripts).sel .hardenS ∧
    packPart [("1.2".data, ⟨"custom harden".data, "custom audit".data,
        "custom revert".data⟩)] .hardenS
      ⟨"1.2 X".data, [], "K2".data, "I2".data, "9".data, [], []⟩ =
      packPart [("1.2".data, ⟨"custom harden".data, "custom audit".data,
        "custom revert".data⟩)] .hardenS
      ⟨"1.2 X".data, [], "K".data, "I".data, "1".data, "POLICY_DWORD".data, []⟩ ∧
    detailScripts [("1.2".data, ⟨"custom harden".data, "custom audit".data,
        "custom revert".data⟩)]
      ⟨"1.2 X".data, [], "K".data, "I".data, "1".data, "POLICY_DWORD".data, []⟩ =
      detailScripts [("1.2".data, ⟨"custom harden".data, "custom audit".data,
        "custom revert".data⟩)]
      ⟨"1.2 X".data, [], "K2".data, "I2".data, "9".data, [], []⟩ ∧
    (¬(⟨"custom harden".data, "custom audit".data, "custom revert".data⟩ :
        Scripts).harden.isEmpty →
      (detailScripts [("1.2".data, ⟨"custom harden".data, "custom audit".data,
          "custom revert".data⟩)]
        ⟨"1.2 X".data, [], "K".data, "I".data, "1".data, "POLICY_DWORD".data,
          []⟩).harden = "custom harden".data) :=
  c5_override_precedence _
    ⟨"1.2 X".data, [], "K".data, "I".data, "1".data, "POLICY_DWORD".data, []⟩
    ⟨"1.2 X".data, [], "K2".data, "I2".data, "9".data, [], []⟩
    .hardenS "1.2".data _ (by decide) (by decide) (by decide)

/-- Claim C7 (amended): typed harden generation — the structured apply path
parses a `POLICY_DWORD` expected value to its numeric form before the registry
write, but the generated harden command text embeds the raw `value_data`
string verbatim (the declared type only selects the `/t REG_DWORD` flag), not
the parsed numeric form. -/
theorem c7_typed_harden (p : Policy)
    (hvt : p.value_type = policyDword)
    (hro : p.reg_option ≠ mustNotExist)
    (hk : ¬p.reg_key.isEmpty) (hi : ¬p.reg_item.isEmpty) :
    applyAct p = .putVal p.reg_key p.reg_item (.num (parseIntJS p.value_data))
      "REG_DWORD".data ∧
    (genDetail p).harden =
      regAddCmd p.reg_key p.reg_item "REG_DWORD".data p.value_data ∧
    containsSeq p.value_data ((genDetail p).harden) = true := by
  have hrt : regTypeOf p.value_type = "REG_DWORD".data := by
    rw [regTypeOf, if_pos hvt]
  have hgen : (genDetail p).harden =
      regAddCmd p.reg_key p.reg_item "REG_DWORD".data p.value_data := by
    rw [genDetail, if_neg (fun h => hro h.1), if_neg (by simp [hk, hi]), hrt]
  refine ⟨?_, hgen, ?_⟩
  · rw [applyAct, if_neg (by simp [hk, hi]), if_neg (fun h => hro h.2), hrt,
      if_pos rfl]
  · rw [hgen, regAddCmd, containsSeq]
    apply firstMatch_isSome_of_occurs
    exact ⟨"reg add \"".data ++ p.reg_key ++ "\" /v \"".data ++ p.reg_item ++
      "\" /t ".data ++ "REG_DWORD".data ++ " /d \"".data, "\" /f".data,
      by simp⟩

/-- Claim C7 counterexample to "embeds the parsed numeric form": for a
`POLICY_DWORD` policy with expected value `"007"` the generated harden command
embeds the raw text `"007"`, which differs from the command that would embed
the parsed numeric form `7`. -/
theorem c7_numeric_embed_fails :
    (genDetail ⟨"1.1 T".data, [], "K".data, "I".data, "007".data,
        "POLICY_DWORD".data, []⟩).harden =
      regAddCmd "K".data "I".data "REG_DWORD".data "007".data ∧
    regAddCmd "K".data "I".data "REG_DWORD".data "007".data ≠
      regAddCmd "K".data "I".data "REG_DWORD".data "7".data ∧
    parseIntJS "007".data = some 7 := by
  refine ⟨?_, ?_, ?_⟩ <;> decide

theorem c7_typed_harden_witness :
    applyAct ⟨"3.1 T".data, [], "K3".data, "I3".data, "007".data,
        "POLICY_DWORD".data, []⟩ =
      .putVal "K3".data "I3".data (.num (parseIntJS "007".data))
        "REG_DWORD".data ∧
    (genDetail ⟨"3.1 T".data, [], "K3".data, "I3".data, "007".data,
        "POLICY_DWORD".data, []⟩).harden =
      regAddCmd "K3".data "I3".data "REG_DWORD".data "007".data ∧
    containsSeq "007".data
      ((genDetail ⟨"3.1 T".data, [], "K3".data, "I3".data, "007".data,
        "POLICY_DWORD".data, []⟩).harden) = true :=
  c7_typed_harden _ (by decide) (by decide) (by decide) (by decide)

/-- Claim C1 (amended): pack/extract round-trip.  For every ordered list of
`(description, command text)` pairs with pairwise-distinct descriptions,
provided descriptions contain no newline, neither descriptions nor texts
contain the header core `"# Policy:"`, and every command text is already
whitespace-trimmed, extracting any listed description from the packed script
returns exactly that pair's command text — including pairs with empty text,
which the packer skips and extraction reports as the empty command.  (Without
the trimming proviso the extraction returns the trimmed text, see the
counterexample.) -/
theorem c1_round_trip (ps : List (Str × Str)) (d t : Str)
    (hmem : (d, t) ∈ ps)
    (hnd : (ps.map Prod.fst).Nodup)
    (hcond : ∀ q ∈ ps, '\n' ∉ q.1 ∧ containsSeq core q.1 = false ∧
      containsSeq core q.2 = false ∧ trim q.2 = q.2) :
    extractBlock (packPairs ps) d = t :=
  packPairs_extract hmem hnd (fun q hq =>
    ⟨(hcond q hq).1, not_occurs_of_containsSeq_false (hcond q hq).2.1,
     not_occurs_of_containsSeq_false (hcond q hq).2.2.1, (hcond q hq).2.2.2⟩)

/-- Claim C1 counterexample to the exact round-trip as stated: a command text
with trailing whitespace is not returned exactly — the extraction applies
`.trim()` to the captured block. -/
theorem c1_exact_round_trip_fails :
    extractBlock (packPairs [("1.1 A".data, "x ".data)]) "1.1 A".data ≠
      "x ".data ∧
    extractBlock (packPairs [("1.1 A".data, "x ".data)]) "1.1 A".data =
      "x".data := by
  refine ⟨?_, ?_⟩ <;> decide

theorem c1_round_trip_witness :
    extractBlock (packPairs [("1.1 A".data, "cmdA".data),
      ("1.2 B".data, ([] : Str)), ("1.3 C".data, "cmdC".data)])
      "1.1 A".data = "cmdA".data :=
  c1_round_trip _ _ _ (by decide) (by decide) (by decide)

/-- Claim C10: on every policy and every registry outcome, `check-status`
returns `success = true` exactly when the verdict is `Compliant`; every other
status is paired with `success = false`. -/
theorem c10_success_iff_compliant (p : Policy) (probe : Probe) :
    (checkStatus p probe).success = true ↔
      (checkStatus p probe).status = "Compliant".data := by
  cases probe with
  | threw m =>
    simp only [checkStatus]
    split_ifs <;> decide
  | listed kex itemVal =>
    cases itemVal with
    | none =>
      simp only [checkStatus]
      split_ifs <;> decide
    | some cur =>
      simp only [checkStatus]
      split_ifs <;> decide

end SecureScript
